import Mathlib

/-!
Verification of the output-extraction routine `_post_process_test_cases`
from `src/geminimodel.py` (repository TE-generate).

Strings are modelled as `List Char`.  Python's `str.strip`, `str.find`,
`str.rfind`, slicing and `min` are embedded as executable functions with
Python semantics (`find`/`rfind` return the least / greatest index at which
the pattern occurs, `-1`-style absence being modelled by `Option` except in
`intRfind`, which keeps the `-1` sentinel used by the source's
`max(rfind, rfind)` expression).
-/

namespace TEGen

/-- Python whitespace predicate used by `str.strip` (ASCII whitespace). -/
def isPySpace (c : Char) : Bool :=
  c = ' ' || c = '\t' || c = '\n' || c = '\r' || c = '\x0b' || c = '\x0c'

/-- Python `str.lstrip()`: drop leading whitespace. -/
def lstrip (s : List Char) : List Char := s.dropWhile isPySpace

/-- Python `str.rstrip()`: drop trailing whitespace. -/
def rstrip (s : List Char) : List Char := (s.reverse.dropWhile isPySpace).reverse

/-- Python `str.strip()`: drop leading and trailing whitespace. -/
def strip (s : List Char) : List Char := rstrip (lstrip s)

/-- `occursAt s sub i`: the pattern `sub` occurs in `s` at index `i`. -/
def occursAt (s sub : List Char) (i : Nat) : Bool := sub.isPrefixOf (s.drop i)

/-- Python `s.find(sub, start)`: least index `i ≥ start` at which `sub`
occurs in `s` (`none` models Python's `-1`). -/
def pyFindFrom (s sub : List Char) (start : Nat) : Option Nat :=
  (List.range (s.length + 1)).find? fun i => decide (start ≤ i) && occursAt s sub i

/-- Python `s.find(sub)`. -/
def pyFind (s sub : List Char) : Option Nat := pyFindFrom s sub 0

/-- Python `s.rfind(sub)`: greatest index at which `sub` occurs in `s`. -/
def pyRfind (s sub : List Char) : Option Nat :=
  (List.range (s.length + 1)).reverse.find? fun i => occursAt s sub i

/-- Python `s.rfind(sub)` with the `-1` sentinel for absence, as used in the
source's `max(cleaned_output.rfind(...), cleaned_output.rfind(...))`. -/
def intRfind (s sub : List Char) : Int :=
  match pyRfind s sub with
  | some i => (i : Int)
  | none => -1

/-- Python `min` over a list (`none` on the empty list, on which the source
never calls it). -/
def minList : List Nat → Option Nat
  | [] => none
  | x :: xs =>
    match minList xs with
    | none => some x
    | some y => some (Nat.min x y)

/-- The primary start marker `"Feature:"`. -/
def featureMarker : List Char := "Feature:".toList

/-- The section marker `"Scenario:"`. -/
def scenarioMarker : List Char := "Scenario:".toList

/-- The section marker `"Scenario Outline:"`. -/
def outlineMarker : List Char := "Scenario Outline:".toList

/-- The trailing-annotation markers, in source order. -/
def endingMarkers : List (List Char) :=
  ["Note:".toList, "Notes:".toList, "Comment:".toList, "Comments:".toList,
   "Explanation:".toList, "#".toList]

/-- All markers recognized anywhere in the routine. -/
def allMarkers : List (List Char) :=
  [featureMarker, scenarioMarker, outlineMarker] ++ endingMarkers

/-- Either section marker occurs at index `i`. -/
def occursAtEither (s : List Char) (i : Nat) : Bool :=
  occursAt s scenarioMarker i || occursAt s outlineMarker i

/-- Step 2 of `_post_process_test_cases`: locate the first `"Feature:"` and,
when found, discard everything before it
(`feature_index = cleaned_output.find("Feature:"); if feature_index >= 0:
cleaned_output = cleaned_output[feature_index:]`). -/
def leadingTrim (cleaned : List Char) : List Char :=
  match pyFind cleaned featureMarker with
  | some feature_index => cleaned.drop feature_index
  | none => cleaned

/-- Steps 3–4 of `_post_process_test_cases`: find the last
`"Scenario:"`/`"Scenario Outline:"` (as `max` of the two `rfind`s with the
`-1` sentinel); when present, collect the `find(marker, last_scenario)`
positions of the trailing-annotation markers and, when any was found, cut at
the least one and strip (`cleaned_output[:end_pos].strip()`). -/
def trailingCut (cleaned : List Char) : List Char :=
  let last_scenario : Int :=
    max (intRfind cleaned scenarioMarker) (intRfind cleaned outlineMarker)
  if 0 ≤ last_scenario then
    let potential_endings : List Nat :=
      endingMarkers.filterMap fun m => pyFindFrom cleaned m last_scenario.toNat
    match minList potential_endings with
    | some end_pos => strip (cleaned.take end_pos)
    | none => cleaned
  else cleaned

/-- The whole of `_post_process_test_cases`: strip, leading trim at the
first `"Feature:"`, trailing cut after the last section marker. -/
def postProcess (raw_output : List Char) : List Char :=
  trailingCut (leadingTrim (strip raw_output))

/-! ### Basic facts about `occursAt` -/

lemma occursAt_iff {s sub : List Char} {i : Nat} :
    occursAt s sub i = true ↔ sub <+: s.drop i := by
  simp [occursAt, List.isPrefixOf_iff_prefix]

lemma occursAt_length {s sub : List Char} {i : Nat} (hsub : sub ≠ [])
    (h : occursAt s sub i = true) : i + sub.length ≤ s.length := by
  rw [occursAt_iff] at h
  have hlen := h.length_le
  rw [List.length_drop] at hlen
  have hpos : 0 < sub.length := List.length_pos.mpr hsub
  omega

lemma occursAt_exists_iff {s sub : List Char} :
    (∃ i, occursAt s sub i = true) ↔ sub <:+: s := by
  constructor
  · rintro ⟨i, h⟩
    rw [occursAt_iff] at h
    exact List.infix_iff_prefix_suffix.mpr ⟨s.drop i, h, List.drop_suffix i s⟩
  · rintro ⟨pre, post, rfl⟩
    refine ⟨pre.length, ?_⟩
    rw [occursAt_iff, List.append_assoc, List.drop_left]
    exact List.prefix_append sub post

/-! ### `find?` over `List.range` and its reverse -/

lemma find?_range_spec {p : Nat → Bool} {n i : Nat}
    (h : (List.range n).find? p = some i) :
    i < n ∧ p i = true ∧ ∀ j, j < i → p j = false := by
  induction n with
  | zero => simp [List.range_zero] at h
  | succ n ih =>
    rw [List.range_succ, List.find?_append] at h
    cases hfind : (List.range n).find? p with
    | some k =>
      rw [hfind] at h
      have hik : k = i := by simpa [Option.or] using h
      subst hik
      obtain ⟨h1, h2, h3⟩ := ih hfind
      exact ⟨Nat.lt_succ_of_lt h1, h2, h3⟩
    | none =>
      rw [hfind] at h
      simp only [Option.none_or] at h
      rw [List.find?_cons] at h
      cases hp : p n with
      | false => rw [hp] at h; simp at h
      | true =>
        rw [hp] at h
        have hni : n = i := by simpa using h
        subst hni
        refine ⟨Nat.lt_succ_self n, hp, ?_⟩
        intro j hj
        have := List.find?_eq_none.mp hfind j (List.mem_range.mpr hj)
        simpa using this

lemma find?_range_isSome {p : Nat → Bool} {n i : Nat} (hi : i < n) (hp : p i = true) :
    ((List.range n).find? p).isSome = true :=
  List.find?_isSome.mpr ⟨i, List.mem_range.mpr hi, hp⟩

lemma find?_range_reverse_spec {p : Nat → Bool} {n i : Nat}
    (h : (List.range n).reverse.find? p = some i) :
    i < n ∧ p i = true ∧ ∀ j, i < j → j < n → p j = false := by
  induction n with
  | zero => simp [List.range_zero] at h
  | succ n ih =>
    rw [List.range_succ, List.reverse_append, List.reverse_singleton,
      List.singleton_append, List.find?_cons] at h
    cases hp : p n with
    | true =>
      rw [hp] at h
      have hni : n = i := by simpa using h
      subst hni
      exact ⟨Nat.lt_succ_self n, hp, fun j hj1 hj2 => absurd hj2 (by omega)⟩
    | false =>
      rw [hp] at h
      obtain ⟨h1, h2, h3⟩ := ih h
      refine ⟨Nat.lt_succ_of_lt h1, h2, ?_⟩
      intro j hj1 hj2
      rcases Nat.lt_or_ge j n with hj | hj
      · exact h3 j hj1 hj
      · have : j = n := by omega
        subst this; exact hp

lemma find?_range_reverse_isSome {p : Nat → Bool} {n i : Nat} (hi : i < n)
    (hp : p i = true) : ((List.range n).reverse.find? p).isSome = true :=
  List.find?_isSome.mpr ⟨i, List.mem_reverse.mpr (List.mem_range.mpr hi), hp⟩

/-! ### Specifications of the Python `find` / `rfind` models -/

lemma pyFindFrom_some {s sub : List Char} {start i : Nat}
    (h : pyFindFrom s sub start = some i) :
    start ≤ i ∧ occursAt s sub i = true ∧
      ∀ j, start ≤ j → j < i → occursAt s sub j = false := by
  obtain ⟨hi, hp, hmin⟩ := find?_range_spec h
  simp only [Bool.and_eq_true, decide_eq_true_eq] at hp
  refine ⟨hp.1, hp.2, ?_⟩
  intro j hj1 hj2
  have hj := hmin j hj2
  cases hocc : occursAt s sub j with
  | false => rfl
  | true => rw [hocc, Bool.and_true, decide_eq_false_iff_not] at hj; exact absurd hj1 hj

lemma pyFindFrom_isSome {s sub : List Char} {start i : Nat} (hsub : sub ≠ [])
    (hstart : start ≤ i) (hocc : occursAt s sub i = true) :
    (pyFindFrom s sub start).isSome = true := by
  have hb := occursAt_length hsub hocc
  have hpos : 0 < sub.length := List.length_pos.mpr hsub
  exact @find?_range_isSome _ _ i (by omega)
    (by rw [hocc, Bool.and_true, decide_eq_true_eq]; exact hstart)

lemma pyFindFrom_none {s sub : List Char} {start : Nat} (hsub : sub ≠ [])
    (h : pyFindFrom s sub start = none) :
    ∀ j, start ≤ j → occursAt s sub j = false := by
  intro j hj
  cases hocc : occursAt s sub j with
  | false => rfl
  | true =>
    exfalso
    have hb := occursAt_length hsub hocc
    have hpos : 0 < sub.length := List.length_pos.mpr hsub
    have hmem := List.find?_eq_none.mp h j (List.mem_range.mpr (by omega))
    rw [hocc, Bool.and_true, decide_eq_true_eq] at hmem
    exact hmem hj

lemma pyRfind_some {s sub : List Char} {i : Nat} (hsub : sub ≠ [])
    (h : pyRfind s sub = some i) :
    occursAt s sub i = true ∧ ∀ j, i < j → occursAt s sub j = false := by
  obtain ⟨hi, hp, hmax⟩ := find?_range_reverse_spec h
  refine ⟨hp, ?_⟩
  intro j hj
  cases hocc : occursAt s sub j with
  | false => rfl
  | true =>
    exfalso
    have hb := occursAt_length hsub hocc
    have hpos : 0 < sub.length := List.length_pos.mpr hsub
    have := hmax j hj (by omega)
    rw [hocc] at this; exact Bool.noConfusion this

lemma pyRfind_isSome {s sub : List Char} {i : Nat} (hsub : sub ≠ [])
    (hocc : occursAt s sub i = true) : (pyRfind s sub).isSome = true := by
  have hb := occursAt_length hsub hocc
  have hpos : 0 < sub.length := List.length_pos.mpr hsub
  exact @find?_range_reverse_isSome _ _ i (by omega) hocc

lemma pyRfind_none {s sub : List Char} (hsub : sub ≠ [])
    (h : pyRfind s sub = none) : ∀ j, occursAt s sub j = false := by
  intro j
  cases hocc : occursAt s sub j with
  | false => rfl
  | true =>
    exfalso
    have hb := occursAt_length hsub hocc
    have hpos : 0 < sub.length := List.length_pos.mpr hsub
    have hmem := List.find?_eq_none.mp h j
      (List.mem_reverse.mpr (List.mem_range.mpr (by omega)))
    rw [hocc] at hmem
    exact hmem rfl

/-! ### Specification of `minList` (Python `min` over a list) -/

lemma minList_none {l : List Nat} (h : minList l = none) : l = [] := by
  cases l with
  | nil => rfl
  | cons x xs =>
    exfalso
    rw [minList] at h
    cases hxs : minList xs with
    | none => rw [hxs] at h; exact Option.some_ne_none _ h
    | some y => rw [hxs] at h; exact Option.some_ne_none _ h

lemma minList_some_mem {l : List Nat} {m : Nat} (h : minList l = some m) :
    m ∈ l ∧ ∀ y ∈ l, m ≤ y := by
  induction l generalizing m with
  | nil => simp [minList] at h
  | cons x xs ih =>
    rw [minList] at h
    cases hxs : minList xs with
    | none =>
      rw [hxs] at h
      have hx : x = m := by simpa using h
      subst hx
      have hnil := minList_none hxs
      subst hnil
      exact ⟨List.mem_singleton.mpr rfl, by simp⟩
    | some y =>
      rw [hxs] at h
      have hm : min x y = m := Option.some.inj h
      obtain ⟨hy1, hy2⟩ := ih hxs
      constructor
      · rcases Nat.le_total x y with hxy | hxy
        · have hx : m = x := by omega
          rw [hx]; exact List.mem_cons_self x xs
        · have hy : m = y := by omega
          rw [hy]; exact List.mem_cons_of_mem x hy1
      · intro z hz
        rcases List.mem_cons.mp hz with hz | hz
        · rw [hz]; omega
        · have := hy2 z hz; omega

lemma minList_eq_some {l : List Nat} {m : Nat} (hm : m ∈ l)
    (hall : ∀ y ∈ l, m ≤ y) : minList l = some m := by
  induction l with
  | nil => simp at hm
  | cons x xs ih =>
    rw [minList]
    cases hxs : minList xs with
    | none =>
      have hnil := minList_none hxs
      subst hnil
      have hx : m = x := by simpa using hm
      show some x = some m
      rw [hx]
    | some y =>
      obtain ⟨hy1, hy2⟩ := minList_some_mem hxs
      have hxm : m ≤ x := hall x (List.mem_cons_self x xs)
      show some (Nat.min x y) = some m
      rcases List.mem_cons.mp hm with hmx | hmxs
      · have hmy : m ≤ y := hall y (List.mem_cons_of_mem x hy1)
        have hmin : min x y = m := by omega
        exact congrArg some hmin
      · have hym : y ≤ m := hy2 m hmxs
        have hmy : m ≤ y := hall y (List.mem_cons_of_mem x hy1)
        have hmin : min x y = m := by omega
        exact congrArg some hmin

/-! ### Structure of `lstrip`, `rstrip` and `strip` -/

lemma lstrip_suf (s : List Char) : lstrip s <:+ s := List.dropWhile_suffix isPySpace

lemma rstrip_pre (s : List Char) : rstrip s <+: s := by
  have h2 : (lstrip s.reverse).reverse <+: s.reverse.reverse :=
    List.reverse_prefix.mpr (lstrip_suf s.reverse)
  rwa [List.reverse_reverse] at h2

lemma strip_inf (s : List Char) : strip s <:+: s :=
  ((rstrip_pre (lstrip s)).isInfix).trans (lstrip_suf s).isInfix

lemma head?_of_pre {l₁ l₂ : List Char} {ch : Char} (h : l₁ <+: l₂)
    (hch : l₁.head? = some ch) : l₂.head? = some ch := by
  obtain ⟨t, rfl⟩ := h
  rw [List.head?_append, hch]
  rfl

lemma lstrip_head? {s : List Char} {ch : Char} (h : (lstrip s).head? = some ch) :
    isPySpace ch = false := by
  induction s with
  | nil => exact Option.noConfusion h
  | cons c t ih =>
    rw [lstrip, List.dropWhile_cons] at h
    by_cases hc : isPySpace c = true
    · rw [if_pos hc] at h; exact ih h
    · rw [if_neg hc] at h
      have hcc : c = ch := Option.some.inj h
      rw [← hcc]
      cases hb : isPySpace c with
      | false => rfl
      | true => exact absurd hb hc

lemma lstrip_eq_self {s : List Char}
    (h : ∀ ch, s.head? = some ch → isPySpace ch = false) : lstrip s = s := by
  cases s with
  | nil => rfl
  | cons c t =>
    have hc := h c rfl
    simp [lstrip, List.dropWhile_cons, hc]

lemma lstrip_idem (s : List Char) : lstrip (lstrip s) = lstrip s :=
  lstrip_eq_self fun _ h => lstrip_head? h

lemma rstrip_getLast? {s : List Char} {ch : Char}
    (h : (rstrip s).getLast? = some ch) : isPySpace ch = false := by
  rw [rstrip, List.getLast?_reverse] at h
  exact lstrip_head? h

lemma rstrip_eq_self {s : List Char}
    (h : ∀ ch, s.getLast? = some ch → isPySpace ch = false) : rstrip s = s := by
  have h2 : lstrip s.reverse = s.reverse := by
    apply lstrip_eq_self
    intro ch hch
    rw [List.head?_reverse] at hch
    exact h ch hch
  rw [rstrip, show List.dropWhile isPySpace s.reverse = s.reverse from h2,
    List.reverse_reverse]

lemma rstrip_idem (s : List Char) : rstrip (rstrip s) = rstrip s :=
  rstrip_eq_self fun _ h => rstrip_getLast? h

lemma strip_head? {s : List Char} {ch : Char} (h : (strip s).head? = some ch) :
    isPySpace ch = false := by
  apply lstrip_head? (s := s)
  exact head?_of_pre (rstrip_pre (lstrip s)) h

lemma strip_getLast? {s : List Char} {ch : Char} (h : (strip s).getLast? = some ch) :
    isPySpace ch = false :=
  rstrip_getLast? h

lemma strip_eq_self {s : List Char}
    (hh : ∀ ch, s.head? = some ch → isPySpace ch = false)
    (hl : ∀ ch, s.getLast? = some ch → isPySpace ch = false) : strip s = s := by
  rw [strip, lstrip_eq_self hh, rstrip_eq_self hl]

lemma strip_idem (s : List Char) : strip (strip s) = strip s :=
  strip_eq_self (fun _ h => strip_head? h) (fun _ h => strip_getLast? h)

lemma strip_nil : strip ([] : List Char) = [] := rfl

/-! ### Occurrences survive stripping -/

lemma suf_dropWhile {p : Char → Bool} {u l : List Char} {ch : Char} (hsuf : u <:+ l)
    (hch : u.head? = some ch) (hp : p ch = false) : u <:+ l.dropWhile p := by
  induction l with
  | nil =>
    obtain ⟨pre, hpre⟩ := hsuf
    have : u = [] := List.append_eq_nil.mp hpre |>.2
    rw [this] at hch; exact Option.noConfusion hch
  | cons c t ih =>
    obtain ⟨pre, hpre⟩ := hsuf
    cases pre with
    | nil =>
      simp only [List.nil_append] at hpre
      subst hpre
      have hc : c = ch := Option.some.inj hch
      subst hc
      rw [List.dropWhile_cons, hp]
      simp
    | cons d pre' =>
      have hd := List.cons.inj hpre
      have hut : u <:+ t := ⟨pre', hd.2⟩
      cases hpc : p c with
      | true =>
        rw [List.dropWhile_cons, hpc]
        simp only [if_true]
        exact ih hut
      | false =>
        rw [List.dropWhile_cons, hpc]
        simp only [Bool.false_eq_true, if_false]
        exact ⟨d :: pre', hpre⟩

lemma inf_lstrip {sub u : List Char} {ch : Char} (hinf : sub <:+: u)
    (hch : sub.head? = some ch) (hp : isPySpace ch = false) : sub <:+: lstrip u := by
  obtain ⟨pre, post, rfl⟩ := hinf
  have hs : (sub ++ post) <:+ pre ++ sub ++ post := ⟨pre, by rw [List.append_assoc]⟩
  have h2 : (sub ++ post).head? = some ch := by rw [List.head?_append, hch]; rfl
  have h3 := suf_dropWhile hs h2 hp
  exact List.infix_iff_prefix_suffix.mpr ⟨sub ++ post, List.prefix_append sub post, h3⟩

lemma inf_rstrip {sub u : List Char} {ch : Char} (hinf : sub <:+: u)
    (hch : sub.getLast? = some ch) (hp : isPySpace ch = false) : sub <:+: rstrip u := by
  have hrev : sub.reverse <:+: u.reverse := List.reverse_infix.mpr hinf
  obtain ⟨pre, post, hpp⟩ := hrev
  have hs : (sub.reverse ++ post) <:+ u.reverse := ⟨pre, by rw [← List.append_assoc, hpp]⟩
  have h2 : (sub.reverse ++ post).head? = some ch := by
    rw [List.head?_append, List.head?_reverse, hch]; rfl
  have h3 := suf_dropWhile hs h2 hp
  have h4 : sub.reverse <:+: u.reverse.dropWhile isPySpace :=
    List.infix_iff_prefix_suffix.mpr ⟨sub.reverse ++ post, List.prefix_append _ _, h3⟩
  rw [← List.reverse_reverse (u.reverse.dropWhile isPySpace)] at h4
  exact List.reverse_infix.mp h4

lemma inf_strip {sub u : List Char} {ch₁ ch₂ : Char} (hinf : sub <:+: u)
    (hh : sub.head? = some ch₁) (hp1 : isPySpace ch₁ = false)
    (hl : sub.getLast? = some ch₂) (hp2 : isPySpace ch₂ = false) : sub <:+: strip u :=
  inf_rstrip (inf_lstrip hinf hh hp1) hl hp2

/-! ### Position bookkeeping for `strip` -/

lemma lstrip_eq_drop (s : List Char) :
    lstrip s = s.drop (s.takeWhile isPySpace).length := by
  have h := List.takeWhile_append_dropWhile isPySpace s
  calc lstrip s
      = (s.takeWhile isPySpace ++ lstrip s).drop (s.takeWhile isPySpace).length := by
        rw [List.drop_left]
    _ = s.drop (s.takeWhile isPySpace).length := by
        rw [show s.takeWhile isPySpace ++ lstrip s = s from h]

lemma pre_drop {l₁ l₂ : List Char} (h : l₁ <+: l₂) (n : Nat) :
    l₁.drop n <+: l₂.drop n := by
  rw [ List.prefix_iff_eq_take.mp h, List.drop_take]
  exact List.take_prefix _ _

lemma occursAt_rstrip_rev {u sub : List Char} {q : Nat}
    (h : occursAt (rstrip u) sub q = true) : occursAt u sub q = true := by
  rw [occursAt_iff] at h ⊢
  exact h.trans (pre_drop (rstrip_pre u) q)

lemma occursAt_strip_shift {x sub : List Char} {q : Nat}
    (h : occursAt (strip x) sub q = true) :
    occursAt x sub ((x.takeWhile isPySpace).length + q) = true := by
  have h1 : occursAt (lstrip x) sub q = true := occursAt_rstrip_rev h
  rw [occursAt_iff] at h1 ⊢
  rw [← List.drop_drop, ← lstrip_eq_drop]
  exact h1

/-! ### Facts about the concrete markers -/

lemma featureMarker_ne : featureMarker ≠ [] := by decide

lemma scenarioMarker_ne : scenarioMarker ≠ [] := by decide

lemma outlineMarker_ne : outlineMarker ≠ [] := by decide

lemma endingMarkers_ne : ∀ mk ∈ endingMarkers, mk ≠ [] := by decide

/-! ### The leading trim -/

lemma leadingTrim_eq_of_none {c : List Char} (h : pyFind c featureMarker = none) :
    leadingTrim c = c := by
  rw [leadingTrim, h]

lemma leadingTrim_eq_of_some {c : List Char} {fi : Nat}
    (h : pyFind c featureMarker = some fi) : leadingTrim c = c.drop fi := by
  rw [leadingTrim, h]

lemma leadingTrim_suf (c : List Char) : leadingTrim c <:+ c := by
  rw [leadingTrim]
  cases pyFind c featureMarker with
  | none => exact List.suffix_refl c
  | some fi => exact List.drop_suffix fi c

lemma occursAtEither_left {c : List Char} {j : Nat}
    (h : occursAt c scenarioMarker j = true) : occursAtEither c j = true := by
  rw [occursAtEither, h, Bool.true_or]

lemma occursAtEither_right {c : List Char} {j : Nat}
    (h : occursAt c outlineMarker j = true) : occursAtEither c j = true := by
  rw [occursAtEither, h, Bool.or_true]

lemma occursAtEither_false {c : List Char} {j : Nat} (h : occursAtEither c j = false) :
    occursAt c scenarioMarker j = false ∧ occursAt c outlineMarker j = false := by
  rw [occursAtEither, Bool.or_eq_false_iff] at h
  exact h

/-! ### The `max(rfind, rfind)` computation -/

lemma intRfind_le {c sub : List Char} {s : Nat} (hsub : sub ≠ [])
    (hmax : ∀ j, s < j → occursAt c sub j = false) : intRfind c sub ≤ (s : Int) := by
  rw [intRfind]
  cases h : pyRfind c sub with
  | none => show (-1 : Int) ≤ (s : Int); omega
  | some i =>
    show (i : Int) ≤ (s : Int)
    obtain ⟨hocc, _⟩ := pyRfind_some hsub h
    by_contra hlt
    have his : s < i := by omega
    rw [hmax i his] at hocc
    exact Bool.noConfusion hocc

lemma intRfind_eq {c sub : List Char} {s : Nat} (hsub : sub ≠ [])
    (hocc : occursAt c sub s = true)
    (hmax : ∀ j, s < j → occursAt c sub j = false) : intRfind c sub = (s : Int) := by
  have hle := intRfind_le hsub hmax
  rw [intRfind] at hle ⊢
  cases h : pyRfind c sub with
  | none =>
    exfalso
    have := pyRfind_isSome hsub hocc
    rw [h] at this
    exact Bool.noConfusion this
  | some i =>
    show (i : Int) = (s : Int)
    obtain ⟨_, hmax'⟩ := pyRfind_some hsub h
    rw [h] at hle
    have hle' : (i : Int) ≤ (s : Int) := hle
    have hsi : s ≤ i := by
      by_contra hlt
      have := hmax' s (by omega)
      rw [hocc] at this
      exact Bool.noConfusion this
    have : i = s := by omega
    rw [this]

lemma lastScenario_eq {c : List Char} {s : Nat} (hs : occursAtEither c s = true)
    (hmax : ∀ j, s < j → occursAtEither c j = false) :
    max (intRfind c scenarioMarker) (intRfind c outlineMarker) = (s : Int) := by
  have hm1 : ∀ j, s < j → occursAt c scenarioMarker j = false :=
    fun j hj => (occursAtEither_false (hmax j hj)).1
  have hm2 : ∀ j, s < j → occursAt c outlineMarker j = false :=
    fun j hj => (occursAtEither_false (hmax j hj)).2
  rw [occursAtEither, Bool.or_eq_true] at hs
  rcases hs with hs | hs
  · have h1 := intRfind_eq scenarioMarker_ne hs hm1
    have h2 := intRfind_le outlineMarker_ne hm2
    omega
  · have h1 := intRfind_le scenarioMarker_ne hm1
    have h2 := intRfind_eq outlineMarker_ne hs hm2
    omega

/-! ### Case analysis of the trailing cut -/

lemma trailingCut_of_no_scenario {c : List Char}
    (h : ∀ j, occursAtEither c j = false) : trailingCut c = c := by
  have h1 : pyRfind c scenarioMarker = none := by
    cases hr : pyRfind c scenarioMarker with
    | none => rfl
    | some i =>
      obtain ⟨hocc, _⟩ := pyRfind_some scenarioMarker_ne hr
      have := (occursAtEither_false (h i)).1
      rw [hocc] at this
      exact Bool.noConfusion this
  have h2 : pyRfind c outlineMarker = none := by
    cases hr : pyRfind c outlineMarker with
    | none => rfl
    | some i =>
      obtain ⟨hocc, _⟩ := pyRfind_some outlineMarker_ne hr
      have := (occursAtEither_false (h i)).2
      rw [hocc] at this
      exact Bool.noConfusion this
  rw [trailingCut, intRfind, intRfind, h1, h2]
  rfl

lemma trailingCut_of_no_endings {c : List Char} {s : Nat}
    (hs : occursAtEither c s = true)
    (hmax : ∀ j, s < j → occursAtEither c j = false)
    (hno : ∀ k, s ≤ k → ∀ mk ∈ endingMarkers, occursAt c mk k = false) :
    trailingCut c = c := by
  have hls := lastScenario_eq hs hmax
  rw [trailingCut, hls]
  have htoNat : ((s : Int)).toNat = s := Int.toNat_natCast s
  rw [if_pos (by omega), htoNat]
  have hfm : endingMarkers.filterMap (fun m => pyFindFrom c m s) = [] := by
    rw [List.filterMap_eq_nil_iff]
    intro mk hmk
    cases hf : pyFindFrom c mk s with
    | none => rfl
    | some j =>
      exfalso
      obtain ⟨hsj, hocc, _⟩ := pyFindFrom_some hf
      have := hno j hsj mk hmk
      rw [hocc] at this
      exact Bool.noConfusion this
  rw [hfm]
  rfl

lemma trailingCut_of_cut {c : List Char} {s m : Nat}
    (hs : occursAtEither c s = true)
    (hmax : ∀ j, s < j → occursAtEither c j = false)
    (hsm : s ≤ m)
    (hmk : ∃ mk ∈ endingMarkers, occursAt c mk m = true)
    (hmin : ∀ k, s ≤ k → k < m → ∀ mk ∈ endingMarkers, occursAt c mk k = false) :
    trailingCut c = strip (c.take m) := by
  have hls := lastScenario_eq hs hmax
  have htoNat : ((s : Int)).toNat = s := Int.toNat_natCast s
  obtain ⟨mk₀, hmk₀, hocc₀⟩ := hmk
  have hminList :
      minList (endingMarkers.filterMap (fun mk => pyFindFrom c mk s)) = some m := by
    apply minList_eq_some
    · rw [List.mem_filterMap]
      refine ⟨mk₀, hmk₀, ?_⟩
      have hsome := pyFindFrom_isSome (endingMarkers_ne mk₀ hmk₀) hsm hocc₀
      cases hf : pyFindFrom c mk₀ s with
      | none => rw [hf] at hsome; exact Bool.noConfusion hsome
      | some j =>
        obtain ⟨hsj, hoccj, hminj⟩ := pyFindFrom_some hf
        have hjm : j ≤ m := by
          by_contra hlt
          have := hminj m hsm (by omega)
          rw [hocc₀] at this
          exact Bool.noConfusion this
        have hmj : m ≤ j := by
          by_contra hlt
          have := hmin j hsj (by omega) mk₀ hmk₀
          rw [hoccj] at this
          exact Bool.noConfusion this
        rw [show j = m from by omega]
    · intro y hy
      rw [List.mem_filterMap] at hy
      obtain ⟨mk, hmk, hf⟩ := hy
      obtain ⟨hsy, hoccy, _⟩ := pyFindFrom_some hf
      by_contra hlt
      have := hmin y hsy (by omega) mk hmk
      rw [hoccy] at this
      exact Bool.noConfusion this
  rw [trailingCut, hls, if_pos (by omega)]
  show (match minList (endingMarkers.filterMap fun mk => pyFindFrom c mk ((s : Int)).toNat) with
      | some end_pos => strip (c.take end_pos)
      | none => c) = strip (c.take m)
  rw [htoNat, hminList]

/-! ### Shape of the trailing cut -/

lemma trailingCut_eq_match (c : List Char) :
    trailingCut c =
      if 0 ≤ max (intRfind c scenarioMarker) (intRfind c outlineMarker) then
        match minList (endingMarkers.filterMap fun mk => pyFindFrom c mk
            (max (intRfind c scenarioMarker) (intRfind c outlineMarker)).toNat) with
        | some end_pos => strip (c.take end_pos)
        | none => c
      else c := rfl

lemma trailingCut_cases (c : List Char) :
    trailingCut c = c ∨
      ∃ m mk, trailingCut c = strip (c.take m) ∧ mk ∈ endingMarkers ∧
        occursAt c mk m = true := by
  rw [trailingCut_eq_match]
  by_cases h : 0 ≤ max (intRfind c scenarioMarker) (intRfind c outlineMarker)
  · rw [if_pos h]
    cases hm : minList (endingMarkers.filterMap fun mk => pyFindFrom c mk
        (max (intRfind c scenarioMarker) (intRfind c outlineMarker)).toNat) with
    | none => left; rfl
    | some e =>
      right
      obtain ⟨hmem, _⟩ := minList_some_mem hm
      rw [List.mem_filterMap] at hmem
      obtain ⟨mk, hmk, hf⟩ := hmem
      obtain ⟨_, hocc, _⟩ := pyFindFrom_some hf
      exact ⟨e, mk, rfl, hmk, hocc⟩
  · rw [if_neg h]; left; rfl

lemma trailingCut_inf (c : List Char) : trailingCut c <:+: c := by
  rcases trailingCut_cases c with h | ⟨m, mk, h, _, _⟩
  · rw [h]
  · rw [h]
    exact (strip_inf _).trans ( List.take_prefix m c).isInfix

lemma postProcess_inf (raw : List Char) : postProcess raw <:+: raw :=
  ((trailingCut_inf _).trans (leadingTrim_suf _).isInfix).trans (strip_inf raw)

/-! ### Heads and tails of the partially processed text -/

lemma getLast?_of_suf {u v : List Char} {ch : Char} (h : u <:+ v)
    (hch : u.getLast? = some ch) : v.getLast? = some ch := by
  obtain ⟨pre, rfl⟩ := h
  rw [List.getLast?_append, hch]
  rfl

lemma leadingTrim_strip_head? {raw : List Char} {ch : Char}
    (h : (leadingTrim (strip raw)).head? = some ch) : isPySpace ch = false := by
  rw [leadingTrim] at h
  cases hf : pyFind (strip raw) featureMarker with
  | none => rw [hf] at h; exact strip_head? h
  | some fi =>
    rw [hf] at h
    obtain ⟨_, hocc, _⟩ := pyFindFrom_some hf
    rw [occursAt_iff] at hocc
    have hF : ((strip raw).drop fi).head? = some 'F' := head?_of_pre hocc rfl
    have hch : ('F' : Char) = ch := Option.some.inj (hF.symm.trans h)
    rw [← hch]
    decide

lemma leadingTrim_strip_stripped (raw : List Char) :
    strip (leadingTrim (strip raw)) = leadingTrim (strip raw) := by
  apply strip_eq_self
  · intro ch hch
    exact leadingTrim_strip_head? hch
  · intro ch hch
    exact strip_getLast? (getLast?_of_suf (leadingTrim_suf (strip raw)) hch)

lemma postProcess_stripped (raw : List Char) :
    strip (postProcess raw) = postProcess raw := by
  rw [postProcess]
  rcases trailingCut_cases (leadingTrim (strip raw)) with h | ⟨m, mk, h, _, _⟩
  · rw [h]
    exact leadingTrim_strip_stripped raw
  · rw [h]
    exact strip_idem _

/-! ### Occurrences out of range -/

lemma occursAt_false_far {c sub : List Char} {j : Nat} (hsub : sub ≠ [])
    (hj : c.length < j + sub.length) : occursAt c sub j = false := by
  cases h : occursAt c sub j with
  | false => rfl
  | true =>
    exfalso
    have := occursAt_length hsub h
    omega

lemma occursAtEither_false_far {c : List Char} {j : Nat} (hj : c.length < j) :
    occursAtEither c j = false := by
  have h1 : 0 < scenarioMarker.length := by decide
  have h2 : 0 < outlineMarker.length := by decide
  rw [occursAtEither, occursAt_false_far scenarioMarker_ne (by omega),
    occursAt_false_far outlineMarker_ne (by omega)]
  rfl

lemma occursAtEither_le {c : List Char} {s : Nat} (h : occursAtEither c s = true) :
    s ≤ c.length := by
  rw [occursAtEither, Bool.or_eq_true] at h
  rcases h with h | h
  · have := occursAt_length scenarioMarker_ne h; omega
  · have := occursAt_length outlineMarker_ne h; omega

/-- From any occurrence of a section marker, the position of the last one. -/
lemma lastScenario_spec {c : List Char} {s₀ : Nat} (h : occursAtEither c s₀ = true) :
    ∃ s, occursAtEither c s = true ∧ (∀ j, s < j → occursAtEither c j = false) ∧
      s₀ ≤ s := by
  rw [occursAtEither, Bool.or_eq_true] at h
  cases h1 : pyRfind c scenarioMarker with
  | none =>
    cases h2 : pyRfind c outlineMarker with
    | none =>
      exfalso
      rcases h with h | h
      · have := pyRfind_isSome scenarioMarker_ne h
        rw [h1] at this; exact Bool.noConfusion this
      · have := pyRfind_isSome outlineMarker_ne h
        rw [h2] at this; exact Bool.noConfusion this
    | some i₂ =>
      obtain ⟨hocc₂, hmax₂⟩ := pyRfind_some outlineMarker_ne h2
      have hall₁ := pyRfind_none scenarioMarker_ne h1
      refine ⟨i₂, occursAtEither_right hocc₂, ?_, ?_⟩
      · intro j hj
        rw [occursAtEither, hall₁ j, hmax₂ j hj]
        rfl
      · rcases h with h | h
        · rw [hall₁ s₀] at h; exact Bool.noConfusion h
        · by_contra hlt
          have := hmax₂ s₀ (by omega)
          rw [h] at this; exact Bool.noConfusion this
  | some i₁ =>
    obtain ⟨hocc₁, hmax₁⟩ := pyRfind_some scenarioMarker_ne h1
    cases h2 : pyRfind c outlineMarker with
    | none =>
      have hall₂ := pyRfind_none outlineMarker_ne h2
      refine ⟨i₁, occursAtEither_left hocc₁, ?_, ?_⟩
      · intro j hj
        rw [occursAtEither, hall₂ j, hmax₁ j hj]
        rfl
      · rcases h with h | h
        · by_contra hlt
          have := hmax₁ s₀ (by omega)
          rw [h] at this; exact Bool.noConfusion this
        · rw [hall₂ s₀] at h; exact Bool.noConfusion h
    | some i₂ =>
      obtain ⟨hocc₂, hmax₂⟩ := pyRfind_some outlineMarker_ne h2
      refine ⟨max i₁ i₂, ?_, ?_, ?_⟩
      · rcases Nat.le_total i₁ i₂ with hle | hle
        · rw [Nat.max_eq_right hle]; exact occursAtEither_right hocc₂
        · rw [Nat.max_eq_left hle]; exact occursAtEither_left hocc₁
      · intro j hj
        rw [occursAtEither, hmax₁ j (by omega), hmax₂ j (by omega)]
        rfl
      · rcases h with h | h
        · by_contra hlt
          have := hmax₁ s₀ (by omega)
          rw [h] at this; exact Bool.noConfusion this
        · by_contra hlt
          have := hmax₂ s₀ (by omega)
          rw [h] at this; exact Bool.noConfusion this

/-! ### Prefixes survive the take and the right strip -/

lemma pre_take {l₁ l₂ : List Char} (h : l₁ <+: l₂) {m : Nat} (hm : l₁.length ≤ m) :
    l₁ <+: l₂.take m := by
  rw [ List.prefix_iff_eq_take] at h ⊢
  rw [List.take_take, min_eq_left hm]
  exact h

lemma pre_rstrip {sub t : List Char} {ch : Char} (h : sub <+: t)
    (hch : sub.getLast? = some ch) (hp : isPySpace ch = false) : sub <+: rstrip t := by
  have hs : sub.reverse <:+ t.reverse := List.reverse_suffix.mpr h
  have hch' : sub.reverse.head? = some ch := by rw [List.head?_reverse]; exact hch
  rw [rstrip, ← List.reverse_reverse sub]
  exact List.reverse_prefix.mpr (suf_dropWhile hs hch' hp)

/-- No trailing-annotation marker can occur inside the leading `"Feature:"`
literal: the characters disagree. -/
lemma no_ending_within_feature {c : List Char} (hf : featureMarker <+: c)
    {mk : List Char} (hmk : mk ∈ endingMarkers) {j : Nat}
    (hj : j < featureMarker.length) (hocc : occursAt c mk j = true) : False := by
  obtain ⟨rest, hrest⟩ := hf
  rw [occursAt_iff, ← hrest, List.drop_append_of_le_length (by omega)] at hocc
  have hmkne : mk ≠ [] := endingMarkers_ne mk hmk
  have hdne : featureMarker.drop j ≠ [] := by
    intro hnil
    have := congrArg List.length hnil
    rw [List.length_drop] at this
    simp at this
    omega
  cases hmkh : mk.head? with
  | none =>
    cases mk with
    | nil => exact hmkne rfl
    | cons a l => exact Option.noConfusion hmkh
  | some ch =>
    have h1 : (featureMarker.drop j ++ rest).head? = some ch := head?_of_pre hocc hmkh
    cases hdh : (featureMarker.drop j).head? with
    | none =>
      cases hd : featureMarker.drop j with
      | nil => exact hdne hd
      | cons a l => rw [hd] at hdh; exact Option.noConfusion hdh
    | some ch' =>
      have h2 : (featureMarker.drop j ++ rest).head? = some ch' := by
        obtain ⟨a, l, hd⟩ : ∃ a l, featureMarker.drop j = a :: l := by
          cases hd : featureMarker.drop j with
          | nil => exact absurd hd hdne
          | cons a l => exact ⟨a, l, rfl⟩
        rw [hd] at hdh ⊢
        exact hdh
      have hcc : ch = ch' := Option.some.inj (h1.symm.trans h2)
      have heq : mk.head? = (featureMarker.drop j).head? := by
        rw [hmkh, hdh, hcc]
      have hlen : featureMarker.length = 8 := by decide
      have hj8 : j < 8 := by omega
      clear h1 h2 hocc hrest hdh hmkh hcc hdne hj hlen
      fin_cases hmk <;> interval_cases j <;> exact absurd heq (by decide)

/-! ### The no-marker case -/

lemma pp_no_markers (x : List Char) (h : ∀ mk ∈ allMarkers, ¬ mk <:+: x) :
    postProcess x = strip x := by
  rw [postProcess]
  have hfeat : pyFind (strip x) featureMarker = none := by
    cases hf : pyFind (strip x) featureMarker with
    | none => rfl
    | some fi =>
      exfalso
      obtain ⟨_, hocc, _⟩ := pyFindFrom_some hf
      exact h featureMarker (by decide)
        ((occursAt_exists_iff.mp ⟨fi, hocc⟩).trans (strip_inf x))
  rw [leadingTrim_eq_of_none hfeat]
  apply trailingCut_of_no_scenario
  intro j
  cases hocc : occursAtEither (strip x) j with
  | false => rfl
  | true =>
    exfalso
    rw [occursAtEither, Bool.or_eq_true] at hocc
    rcases hocc with hocc | hocc
    · exact h scenarioMarker (by decide)
        ((occursAt_exists_iff.mp ⟨j, hocc⟩).trans (strip_inf x))
    · exact h outlineMarker (by decide)
        ((occursAt_exists_iff.mp ⟨j, hocc⟩).trans (strip_inf x))

/-! ### Cleaned form and the fixed-point property -/

/-- An input is in cleaned form when it carries no surrounding whitespace, no
leading commentary before the `"Feature:"` start marker (if the marker occurs
at all, its first occurrence is at position 0), and no trailing-annotation
marker at or after the last section marker. -/
def CleanedForm (x : List Char) : Prop :=
  strip x = x ∧
  (¬ featureMarker <:+: x ∨ occursAt x featureMarker 0 = true) ∧
  (∀ s, s ≤ x.length → occursAtEither x s = true →
    (∀ j, j ≤ x.length → s < j → occursAtEither x j = false) →
    ∀ k, k ≤ x.length → s ≤ k → ∀ mk ∈ endingMarkers, occursAt x mk k = false)

lemma cleanedForm_fixed {x : List Char} (h : CleanedForm x) : postProcess x = x := by
  obtain ⟨h1, h2, h3⟩ := h
  rw [postProcess, h1]
  have hlt : leadingTrim x = x := by
    rcases h2 with h2 | h2
    · apply leadingTrim_eq_of_none
      cases hf : pyFind x featureMarker with
      | none => rfl
      | some fi =>
        exfalso
        obtain ⟨_, hocc, _⟩ := pyFindFrom_some hf
        exact h2 (occursAt_exists_iff.mp ⟨fi, hocc⟩)
    · have hf : pyFind x featureMarker = some 0 := by
        cases hf : pyFind x featureMarker with
        | none =>
          exfalso
          have hsome := pyFindFrom_isSome featureMarker_ne (Nat.le_refl 0) h2
          rw [show pyFindFrom x featureMarker 0 = none from hf] at hsome
          exact Bool.noConfusion hsome
        | some fi =>
          obtain ⟨_, _, hmin⟩ := pyFindFrom_some hf
          cases hfi : fi with
          | zero => rfl
          | succ n =>
            exfalso
            have := hmin 0 (Nat.le_refl 0) (by omega)
            rw [h2] at this
            exact Bool.noConfusion this
      rw [leadingTrim_eq_of_some hf, List.drop_zero]
  rw [hlt]
  by_cases hsc : ∃ s, occursAtEither x s = true
  · obtain ⟨s₀, hs₀⟩ := hsc
    obtain ⟨s, hs, hmax, _⟩ := lastScenario_spec hs₀
    have hsle : s ≤ x.length := occursAtEither_le hs
    have hno := h3 s hsle hs (fun j _ hj => hmax j hj)
    apply trailingCut_of_no_endings hs hmax
    intro k hk mk hmk
    by_cases hklen : k ≤ x.length
    · exact hno k hklen hk mk hmk
    · have : 0 < mk.length := List.length_pos.mpr (endingMarkers_ne mk hmk)
      exact occursAt_false_far (endingMarkers_ne mk hmk) (by omega)
  · apply trailingCut_of_no_scenario
    intro j
    cases hocc : occursAtEither x j with
    | false => rfl
    | true => exact absurd ⟨j, hocc⟩ hsc

/-! ## The claims -/

/-- Input witnessing that claim C1, with positions measured in the raw input,
fails: the leading trim at `"Feature:"` removes the section marker, so no
trailing cut happens and the output keeps text at and after the
trailing-annotation marker. -/
def c1Input : List Char := "Scenario: A Note: x Feature: Y".toList

/-- C1 (counterexample to the claim as stated): in `c1Input` the last
occurrence of a section marker is at input position 0 and the minimum
trailing-annotation marker position at or after it is 12 (`"Note:"`), yet the
output `"Feature: Y"` is exactly the characters of the input at positions
20–29, so it does not exclude the characters at or after position 12: it is
not contained in the first 12 characters, and it contains `'Y'`, a character
occurring in the input only at position 29. -/
theorem c1_input_positions_counterexample :
    (occursAtEither c1Input 0 = true ∧
      ∀ j, j ≤ c1Input.length → 0 < j → occursAtEither c1Input j = false) ∧
    ((∃ mk ∈ endingMarkers, occursAt c1Input mk 12 = true) ∧
      ∀ k, k < 12 → ∀ mk ∈ endingMarkers, occursAt c1Input mk k = false) ∧
    postProcess c1Input = "Feature: Y".toList ∧
    ¬ postProcess c1Input <:+: c1Input.take 12 ∧
    'Y' ∈ postProcess c1Input ∧ 'Y' ∉ c1Input.take 12 := by decide

/-- C1 (amended: positions are measured in the text obtained after the
whitespace strip and the leading `"Feature:"` trim, not in the raw input):
when the last section-marker occurrence in that text is at `s` and the least
trailing-annotation marker position at or after `s` is `m`, the output is the
stripped prefix of that text of length at most `m`, so it excludes all its
characters at or after position `m`. -/
theorem c1_trailing_cut (raw : List Char) (s m : Nat)
    (hs : occursAtEither (leadingTrim (strip raw)) s = true)
    (hmax : ∀ j, j ≤ (leadingTrim (strip raw)).length → s < j →
      occursAtEither (leadingTrim (strip raw)) j = false)
    (hsm : s ≤ m)
    (hmk : ∃ mk ∈ endingMarkers, occursAt (leadingTrim (strip raw)) mk m = true)
    (hmin : ∀ k, k < m → s ≤ k → ∀ mk ∈ endingMarkers,
      occursAt (leadingTrim (strip raw)) mk k = false) :
    postProcess raw = strip ((leadingTrim (strip raw)).take m) ∧
      (postProcess raw).length ≤ m := by
  have hmax' : ∀ j, s < j → occursAtEither (leadingTrim (strip raw)) j = false := by
    intro j hj
    by_cases hlen : j ≤ (leadingTrim (strip raw)).length
    · exact hmax j hlen hj
    · exact occursAtEither_false_far (by omega)
  have hmin' : ∀ k, s ≤ k → k < m → ∀ mk ∈ endingMarkers,
      occursAt (leadingTrim (strip raw)) mk k = false :=
    fun k hk1 hk2 => hmin k hk2 hk1
  have heq : postProcess raw = strip ((leadingTrim (strip raw)).take m) := by
    rw [postProcess]
    exact trailingCut_of_cut hs hmax' hsm hmk hmin'
  refine ⟨heq, ?_⟩
  rw [heq]
  have h1 := (strip_inf ((leadingTrim (strip raw)).take m)).length_le
  have h2 : ((leadingTrim (strip raw)).take m).length ≤ m := by
    rw [List.length_take]; omega
  omega

theorem c1_trailing_cut_witness :
    postProcess "  Feature: X\nScenario: A\nNote: x  ".toList
        = strip ((leadingTrim (strip "  Feature: X\nScenario: A\nNote: x  ".toList)).take 23) ∧
      (postProcess "  Feature: X\nScenario: A\nNote: x  ".toList).length ≤ 23 :=
  c1_trailing_cut _ 11 23 (by decide) (by decide) (by decide) (by decide) (by decide)

/-- C2: when the first occurrence of `"Feature:"` in the input is at position
`p`, the output is contained in the input from position `p` on: no character
before `p` is kept. -/
theorem c2_discard_before_feature (x : List Char) (p : Nat)
    (h1 : occursAt x featureMarker p = true)
    (h2 : ∀ q, q < p → occursAt x featureMarker q = false) :
    postProcess x <:+: x.drop p := by
  have hinf : featureMarker <:+: x := occursAt_exists_iff.mp ⟨p, h1⟩
  have hinfs : featureMarker <:+: strip x :=
    inf_strip hinf rfl (by decide) rfl (by decide)
  obtain ⟨q, hq⟩ := occursAt_exists_iff.mpr hinfs
  have hsome := pyFindFrom_isSome featureMarker_ne (Nat.zero_le q) hq
  cases hf : pyFind (strip x) featureMarker with
  | none =>
    rw [show pyFindFrom (strip x) featureMarker 0 = none from hf] at hsome
    exact Bool.noConfusion hsome
  | some fi =>
    obtain ⟨_, hocc, _⟩ := pyFindFrom_some hf
    have hshift := occursAt_strip_shift hocc
    have hpa : p ≤ (x.takeWhile isPySpace).length + fi := by
      by_contra hlt
      have := h2 ((x.takeWhile isPySpace).length + fi) (by omega)
      rw [hshift] at this
      exact Bool.noConfusion this
    have hppi : postProcess x <:+: (strip x).drop fi := by
      rw [postProcess, leadingTrim_eq_of_some hf]
      exact trailingCut_inf _
    have hpre : strip x <+: x.drop (x.takeWhile isPySpace).length := by
      have h3 : strip x <+: lstrip x := rstrip_pre (lstrip x)
      rw [lstrip_eq_drop x] at h3
      exact h3
    have hdrop : (strip x).drop fi <+: x.drop ((x.takeWhile isPySpace).length + fi) := by
      have h3 := pre_drop hpre fi
      rwa [List.drop_drop] at h3
    have hdrop2 : x.drop ((x.takeWhile isPySpace).length + fi) <:+ x.drop p := by
      rw [show (x.takeWhile isPySpace).length + fi
          = p + ((x.takeWhile isPySpace).length + fi - p) from by omega,
        ← List.drop_drop]
      exact List.drop_suffix _ _
    exact (hppi.trans hdrop.isInfix).trans hdrop2.isInfix

theorem c2_discard_before_feature_witness :
    postProcess "junk Feature: X\nScenario: A".toList
      <:+: "junk Feature: X\nScenario: A".toList.drop 5 :=
  c2_discard_before_feature _ 5 (by decide) (by decide)

/-- C3: on an input containing none of the nine recognized markers, the
routine returns exactly the whitespace-stripped input. -/
theorem c3_no_markers (x : List Char) (h : ∀ mk ∈ allMarkers, ¬ mk <:+: x) :
    postProcess x = strip x :=
  pp_no_markers x h

theorem c3_no_markers_witness :
    postProcess "  plain text  ".toList = strip "  plain text  ".toList :=
  c3_no_markers _ (by decide)

/-- C4: for every input the output is a contiguous substring of the input
(text is only removed at the two ends, never inserted, reordered or
altered), and in the absence of all recognized markers the whole stripped
input is retained. -/
theorem c4_substring_only (raw : List Char) :
    postProcess raw <:+: raw ∧
      ((∀ mk ∈ allMarkers, ¬ mk <:+: raw) → postProcess raw = strip raw) :=
  ⟨postProcess_inf raw, fun h => pp_no_markers raw h⟩

theorem c4_substring_only_witness :
    postProcess "no markers at all".toList <:+: "no markers at all".toList ∧
      postProcess "no markers at all".toList = strip "no markers at all".toList :=
  ⟨(c4_substring_only _).1, (c4_substring_only _).2 (by decide)⟩

/-- C5: when neither section marker occurs in the text left after the
whitespace strip and the optional leading trim, no trailing trim is
performed: the routine returns that text as it stands after step 2. -/
theorem c5_no_scenario_no_cut (raw : List Char)
    (h1 : ¬ scenarioMarker <:+: leadingTrim (strip raw))
    (h2 : ¬ outlineMarker <:+: leadingTrim (strip raw)) :
    postProcess raw = leadingTrim (strip raw) := by
  rw [postProcess]
  apply trailingCut_of_no_scenario
  intro j
  cases hocc : occursAtEither (leadingTrim (strip raw)) j with
  | false => rfl
  | true =>
    exfalso
    rw [occursAtEither, Bool.or_eq_true] at hocc
    rcases hocc with hocc | hocc
    · exact h1 (occursAt_exists_iff.mp ⟨j, hocc⟩)
    · exact h2 (occursAt_exists_iff.mp ⟨j, hocc⟩)

theorem c5_no_scenario_no_cut_witness :
    postProcess "intro Feature: X only\nNote: kept".toList
      = leadingTrim (strip "intro Feature: X only\nNote: kept".toList) :=
  c5_no_scenario_no_cut _ (by decide) (by decide)

/-- C6: the routine is idempotent on inputs already in cleaned form (no
surrounding whitespace, no leading commentary before the start marker, no
trailing-annotation marker left after the last section marker). -/
theorem c6_idempotent_on_cleaned (x : List Char) (h : CleanedForm x) :
    postProcess (postProcess x) = postProcess x := by
  rw [cleanedForm_fixed h]
  exact cleanedForm_fixed h

theorem c6_idempotent_on_cleaned_witness :
    postProcess (postProcess "Feature: X\nScenario: A".toList)
      = postProcess "Feature: X\nScenario: A".toList :=
  c6_idempotent_on_cleaned _
    ⟨by decide, by decide,
      fun s _ _ _ k hk _ mk hmk =>
        (by decide : ∀ k ≤ "Feature: X\nScenario: A".toList.length,
            ∀ mk ∈ endingMarkers,
              occursAt "Feature: X\nScenario: A".toList mk k = false)
          k hk mk hmk⟩

/-- C7: the routine is total: it is defined on every input (including the
empty string, on which it returns the empty string) and always returns a
text result, namely a substring of the input, possibly the input itself. -/
theorem c7_total_function :
    postProcess [] = [] ∧
      ∀ raw : List Char, ∃ out : List Char, postProcess raw = out ∧ out <:+: raw :=
  ⟨by decide, fun raw => ⟨postProcess raw, rfl, postProcess_inf raw⟩⟩

/-- C8: the two worked examples of the spec evaluate to their stated
outputs. -/
theorem c8_worked_examples :
    postProcess "blah blah Feature: X\nScenario: A\nNote: ignore this".toList
        = "Feature: X\nScenario: A".toList ∧
      postProcess "Feature: X\nScenario Outline: B\n# stray comment".toList
        = "Feature: X\nScenario Outline: B".toList := by
  decide

/-- C9 (implicit): every output is whitespace-normalized: on every return
path the result equals its own whitespace strip. -/
theorem c9_output_whitespace_normalized (raw : List Char) :
    postProcess raw = strip (postProcess raw) :=
  (postProcess_stripped raw).symm

/-- C10 (implicit): whenever the stripped input contains `"Feature:"`, the
output begins with the literal `"Feature:"`; the trailing cut can never
remove or truncate this leading marker. -/
theorem c10_output_starts_with_feature (raw : List Char)
    (h : featureMarker <:+: strip raw) :
    featureMarker <+: postProcess raw := by
  obtain ⟨q, hq⟩ := occursAt_exists_iff.mpr h
  have hsome := pyFindFrom_isSome featureMarker_ne (Nat.zero_le q) hq
  cases hf : pyFind (strip raw) featureMarker with
  | none =>
    rw [show pyFindFrom (strip raw) featureMarker 0 = none from hf] at hsome
    exact Bool.noConfusion hsome
  | some fi =>
    obtain ⟨_, hocc, _⟩ := pyFindFrom_some hf
    rw [occursAt_iff] at hocc
    rw [postProcess, leadingTrim_eq_of_some hf]
    rcases trailingCut_cases ((strip raw).drop fi) with hcase | ⟨m, mk, hcase, hmk, hoccm⟩
    · rw [hcase]; exact hocc
    · rw [hcase]
      have h8 : featureMarker.length ≤ m := by
        by_contra hlt
        exact no_ending_within_feature hocc hmk (by omega) hoccm
      have hpm : featureMarker <+: ((strip raw).drop fi).take m := pre_take hocc h8
      have hh : (((strip raw).drop fi).take m).head? = some 'F' := head?_of_pre hpm rfl
      have hls : lstrip (((strip raw).drop fi).take m) = ((strip raw).drop fi).take m := by
        apply lstrip_eq_self
        intro ch hch
        rw [hh] at hch
        rw [show ch = 'F' from (Option.some.inj hch).symm]
        decide
      rw [strip, hls]
      exact pre_rstrip hpm rfl (by decide)

theorem c10_output_starts_with_feature_witness :
    featureMarker <+: postProcess " x Feature: A\nScenario: B\nNote: c".toList :=
  c10_output_starts_with_feature _ (by decide)

end TEGen
